import Mathlib

/-!
# Shallow embedding of `src/connections.py`

A strategy-search engine for a generalized "Connections" puzzle.  Slots are
modelled as natural numbers, Python `frozenset`s of slots as `Finset Slot`,
and the lazy generators as Lean lists.  The recursive search
`has_winning_strat` is defined through an explicit fuel counter together with
a proof that the fuel bound `State.measure + 1` always suffices, which also
settles the termination question for the source recursion.
-/

set_option maxHeartbeats 1000000
set_option linter.unusedVariables false

abbrev Slot := ℕ

/-- `Slot.create_n`: the slots `0 .. n-1`, as built by the entry point. -/
def Slot.create_n (n : ℕ) : List Slot := List.range n

/-- `Result`: the possible results/feedbacks a move can have. -/
inductive Result : Type
  | OFF_BY_MORE
  | OFF_BY_ONE
  | CORRECT
deriving DecidableEq

/-- `Move`: a selection of slots together with its result. -/
structure Move : Type where
  selection : Finset Slot
  result : Result
deriving DecidableEq

/-- `GameParams`: invariant properties of a game. -/
structure GameParams : Type where
  slots : List Slot
  GROUP_SIZE : ℕ := 4
deriving DecidableEq

/-- `Solution`: a solution to a game, a tuple of groups of slots. -/
structure Solution : Type where
  groupings : List (List Slot)
  params : GameParams
deriving DecidableEq

/-- `Solution.result_for_move`: per-group overlap counts with the selection;
`CORRECT` if some count equals `GROUP_SIZE`, `OFF_BY_ONE` if some count equals
`GROUP_SIZE - 1` (Python integer arithmetic, hence the comparison in `ℤ`),
otherwise `OFF_BY_MORE`. -/
def Solution.result_for_move (sol : Solution) (selection : Finset Slot) : Result :=
  let group_counts := sol.groupings.map (fun g => g.countP (fun s => decide (s ∈ selection)))
  if sol.params.GROUP_SIZE ∈ group_counts then Result.CORRECT
  else if ((sol.params.GROUP_SIZE : ℤ) - 1) ∈ group_counts.map Int.ofNat then
    Result.OFF_BY_ONE
  else Result.OFF_BY_MORE

/-- `State`: the general parameters of the game and the moves played so far. -/
structure State : Type where
  params : GameParams
  moves : List Move
deriving DecidableEq

/-- The participation signature of a slot: the sets of `sets` it belongs to
(`participates_in[item]` in `State._smallest_basis`). -/
def signature (sets : Finset (Finset Slot)) (x : Slot) : Finset (Finset Slot) :=
  sets.filter (fun s => x ∈ s)

/-- `State._smallest_basis`: group the slots occurring in `sets` by their
participation signature (`inv_participates_in`) and return the set of
resulting classes. -/
def smallest_basis (sets : Finset (Finset Slot)) : Finset (Finset Slot) :=
  (sets.sup id).image
    (fun x => (sets.sup id).filter (fun y => signature sets y = signature sets x))

/-- Canonical ascending enumeration of a finite set of slots (a concrete,
kernel-computable stand-in for set iteration order). -/
def finsetToList (F : Finset Slot) : List Slot :=
  (List.range (F.sup id + 1)).filter (fun x => decide (x ∈ F))

/-- The classes of `smallest_basis` as a concretely ordered list of sorted
lists, playing the role of Python's `list(basis)` (set iteration order is
arbitrary but deterministic; here classes are ordered by their first member
and each class is listed ascending). -/
def basis_list (sets : Finset (Finset Slot)) : List (List Slot) :=
  let items := finsetToList (sets.sup id)
  (items.map (fun x => items.filter (fun y => decide (signature sets y = signature sets x)))).dedup

/-- `State._get_possible_selections`: all selections obtained by taking, from
each class in `sets` in order, an initial segment of `i ≤ min n_items (class
size)` members (`islice` of the class) with the sizes summing to `n_items`. -/
def get_possible_selections_aux : List (List Slot) → ℕ → List (Finset Slot)
  | _, 0 => [∅]
  | [], _ + 1 => []
  | c :: rest, n + 1 =>
    (List.range (min (n + 1) c.length + 1)).flatMap (fun i =>
      (get_possible_selections_aux rest (n + 1 - i)).map
        (fun further => (c.take i).toFinset ∪ further))

/-- The selections already made, plus the universal slot set
(`prev_selections` in `State.get_possible_selections`). -/
def State.prev_selections (st : State) : Finset (Finset Slot) :=
  (st.moves.map Move.selection).toFinset ∪ {st.params.slots.toFinset}

/-- `State.get_possible_selections`: selections of size `GROUP_SIZE` built
from the basis classes of the previous selections, with the previous
selections themselves filtered out. -/
def State.get_possible_selections (st : State) : List (Finset Slot) :=
  (get_possible_selections_aux (basis_list st.prev_selections) st.params.GROUP_SIZE).filter
    (fun selection => decide (selection ∉ st.prev_selections))

/-- Modelled from the spec: the partition enumerator
`labeled_balls_in_unlabeled_boxes` is imported from a `combinatorics` module
whose source is not under `src/`.  Following §4.1 of the specification:
recursively choose the group containing the first remaining item by
enumerating all subsets of the remaining items of the right size that include
that representative; an empty size list with no items left yields exactly the
empty partition, and inconsistent arguments yield an empty sequence. -/
def partition_groups : List Slot → List ℕ → List (List (List Slot))
  | [], [] => [[]]
  | [], _ :: _ => []
  | _ :: _, [] => []
  | x :: xs, k :: ks =>
    (xs.sublistsLen (k - 1)).flatMap (fun g =>
      (partition_groups (xs.diff g) ks).map (fun rest => (x :: g) :: rest))

/-- Modelled from the spec: the call made by `State.possible_solutions`, over
the labeled items `0 .. n_slots - 1`. -/
def labeled_balls_in_unlabeled_boxes (n_slots : ℕ) (group_sizes : List ℕ) :
    List (List (List Slot)) :=
  partition_groups (List.range n_slots) group_sizes

/-- `State.possible_solutions`: all solutions that are still possible, i.e.
all enumerated partitions whose predicted result matches every prior move. -/
def State.possible_solutions (st : State) : List Solution :=
  let n_slots := st.params.slots.length
  let n_groups := n_slots / st.params.GROUP_SIZE
  let group_sizes := List.replicate n_groups st.params.GROUP_SIZE
  ((labeled_balls_in_unlabeled_boxes n_slots group_sizes).map
      (fun combi => Solution.mk combi st.params)).filter
    (fun sol => st.moves.all (fun m => decide (sol.result_for_move m.selection = m.result)))

/-- `State.get_possible_results`: the results that are still possible for a
given selection (each distinct result once). -/
def State.get_possible_results (st : State) (selection : Finset Slot) : List Result :=
  (st.possible_solutions.map (fun sol => sol.result_for_move selection)).dedup

/-- Appending one hypothesized move to the state
(`State(state.params, state.moves + [move])`). -/
def State.play (st : State) (selection : Finset Slot) (r : Result) : State :=
  ⟨st.params, st.moves ++ [⟨selection, r⟩]⟩

/-- All slots mentioned by the state: the slot list together with every slot
occurring in a recorded selection. -/
def State.slot_universe (st : State) : Finset Slot := st.prev_selections.sup id

/-- Termination measure for the search: the number of `GROUP_SIZE`-sized
subsets of the slot universe that are not yet among the previous
selections. -/
def State.measure (st : State) : ℕ :=
  ((st.slot_universe.powersetCard st.params.GROUP_SIZE).filter
      (fun s => s ∉ st.prev_selections)).card

/-- Conjunction over a list of fallible `Bool`s, short-circuiting like the
inner `for result ... else` loop. -/
def optionAll (f : α → Option Bool) : List α → Option Bool
  | [] => some true
  | a :: l =>
    match f a with
    | none => none
    | some false => some false
    | some true => optionAll f l

/-- Disjunction over a list of fallible `Bool`s, short-circuiting like the
outer `for selection` loop. -/
def optionAny (f : α → Option Bool) : List α → Option Bool
  | [] => some false
  | a :: l =>
    match f a with
    | none => none
    | some true => some true
    | some false => optionAny f l

/-- The budget passed to the recursive call: unchanged for `CORRECT`,
decremented otherwise. -/
def next_tries (r : Result) (n_tries : ℤ) : ℤ :=
  if r = Result.CORRECT then n_tries else n_tries - 1

/-- `has_winning_strat`, instrumented with a fuel counter bounding the
recursion depth: win when the number of `CORRECT` moves equals the number of
groups; lose at budget `0`; otherwise some generated selection must win
against every possible result. -/
def has_winning_strat_fuel : ℕ → State → ℤ → Option Bool
  | 0, _, _ => none
  | fuel + 1, st, n_tries =>
    if st.moves.countP (fun m => decide (m.result = Result.CORRECT)) =
        st.params.slots.length / st.params.GROUP_SIZE then some true
    else if n_tries = 0 then some false
    else
      optionAny (fun selection =>
        optionAll (fun r =>
          has_winning_strat_fuel fuel (st.play selection r) (next_tries r n_tries))
          (st.get_possible_results selection))
        st.get_possible_selections

/-- `has_winning_strat`: run the fueled search with the always-sufficient
fuel bound `State.measure + 1` (sufficiency is proved below). -/
def has_winning_strat (st : State) (n_tries : ℤ) : Bool :=
  (has_winning_strat_fuel (st.measure + 1) st n_tries).getD false

/-- Union of a list of finite sets (used to state facts about the classes). -/
def unionOfLists (cs : List (List Slot)) : Finset Slot :=
  cs.foldr (fun c acc => c.toFinset ∪ acc) ∅

/-- The union of the initial segments of the classes described by the count
list `ns` (specification-side description of one generated selection). -/
def takeUnion (cs : List (List Slot)) (ns : List ℕ) : Finset Slot :=
  ((cs.zip ns).map (fun p => (p.1.take p.2).toFinset)).foldr (· ∪ ·) ∅

/-- Specification-side maximum per-group overlap between a partition's groups
and a selection. -/
def maxOverlap (sol : Solution) (selection : Finset Slot) : ℕ :=
  (sol.groupings.map (fun g => (g.toFinset ∩ selection).card)).foldr max 0

/-! ## Basic lemmas about list maxima and overlap counts -/

lemma foldr_max_le {l : List ℕ} {k : ℕ} (h : ∀ x ∈ l, x ≤ k) : l.foldr max 0 ≤ k := by
  induction l with
  | nil => simp
  | cons a l ih =>
    simp only [List.foldr_cons, max_le_iff]
    exact ⟨h a (by simp), ih (fun x hx => h x (by simp [hx]))⟩

lemma le_foldr_max {l : List ℕ} {x : ℕ} (h : x ∈ l) : x ≤ l.foldr max 0 := by
  induction l with
  | nil => simp at h
  | cons a l ih =>
    rcases List.mem_cons.mp h with rfl | hx
    · simp
    · exact le_trans (ih hx) (by simp)

lemma foldr_max_mem {l : List ℕ} (h : l ≠ []) : l.foldr max 0 ∈ l := by
  induction l with
  | nil => exact absurd rfl h
  | cons a l ih =>
    rcases eq_or_ne l [] with rfl | hl
    · simp
    · rcases le_total a (l.foldr max 0) with hle | hle
      · simp only [List.foldr_cons, max_eq_right hle]
        exact List.mem_cons_of_mem a (ih hl)
      · simp [List.foldr_cons, max_eq_left hle]

lemma count_eq_inter_card {g : List Slot} (hg : g.Nodup) (sel : Finset Slot) :
    g.countP (fun s => decide (s ∈ sel)) = (g.toFinset ∩ sel).card := by
  rw [List.countP_eq_length_filter]
  have h1 : (g.filter (fun s => decide (s ∈ sel))).toFinset =
      g.toFinset ∩ sel := by
    ext x
    simp [List.mem_filter]
  rw [← h1, List.toFinset_card_of_nodup (hg.filter _)]

lemma mem_int_cast_list {l : List ℕ} {k : ℕ} (hk : 0 < k) :
    (((k : ℤ) - 1) ∈ l.map Int.ofNat) ↔ (k - 1) ∈ l := by
  rw [List.mem_map]
  constructor
  · rintro ⟨c, hc, hcast⟩
    have hcast' : (c : ℤ) = (k : ℤ) - 1 := hcast
    have h3 : c = k - 1 := by omega
    exact h3 ▸ hc
  · intro h
    exact ⟨k - 1, h, show ((k - 1 : ℕ) : ℤ) = (k : ℤ) - 1 by omega⟩

/-- C2: for a partition into disjoint `GROUP_SIZE`-sized groups,
`result_for_move` returns `CORRECT` iff the maximum per-group intersection
cardinality `m` equals `GROUP_SIZE`, `OFF_BY_ONE` iff `m` equals
`GROUP_SIZE - 1`, and `OFF_BY_MORE` otherwise: the classification depends
only on this maximum. -/
theorem result_for_move_max_characterization (sol : Solution) (sel : Finset Slot)
    (hk : 0 < sol.params.GROUP_SIZE)
    (hne : sol.groupings ≠ [])
    (hg : ∀ g ∈ sol.groupings, g.Nodup ∧ g.length = sol.params.GROUP_SIZE)
    (hdisj : sol.groupings.Pairwise (fun g1 g2 => ∀ x ∈ g1, x ∉ g2)) :
    (sol.result_for_move sel = Result.CORRECT ↔ maxOverlap sol sel = sol.params.GROUP_SIZE) ∧
    (sol.result_for_move sel = Result.OFF_BY_ONE ↔
      maxOverlap sol sel = sol.params.GROUP_SIZE - 1) ∧
    (sol.result_for_move sel = Result.OFF_BY_MORE ↔
      (maxOverlap sol sel ≠ sol.params.GROUP_SIZE ∧
       maxOverlap sol sel ≠ sol.params.GROUP_SIZE - 1)) := by
  set k := sol.params.GROUP_SIZE with hkdef
  set counts := sol.groupings.map (fun g => g.countP (fun s => decide (s ∈ sel))) with hcounts
  have hmax : maxOverlap sol sel = counts.foldr max 0 := by
    unfold maxOverlap
    congr 1
    refine List.map_congr_left (fun g hgmem => ?_)
    rw [count_eq_inter_card (hg g hgmem).1]
  have hbound : ∀ c ∈ counts, c ≤ k := by
    intro c hc
    rcases List.mem_map.mp hc with ⟨g, hgmem, rfl⟩
    calc g.countP _ ≤ g.length := List.countP_le_length _
    _ = k := (hg g hgmem).2
  have hcne : counts ≠ [] := by
    simpa [hcounts] using hne
  unfold Solution.result_for_move
  rw [← hkdef, ← hcounts]
  by_cases h1 : k ∈ counts
  · have hm : counts.foldr max 0 = k := le_antisymm (foldr_max_le hbound) (le_foldr_max h1)
    simp only [if_pos h1, hmax, hm]
    refine ⟨by simp, ?_, ?_⟩
    · constructor
      · intro h; cases h
      · intro h; omega
    · constructor
      · intro h; cases h
      · intro h; exact absurd rfl h.1
  · have hmlt : counts.foldr max 0 < k :=
      lt_of_le_of_ne (foldr_max_le hbound) (fun h => h1 (h ▸ foldr_max_mem hcne))
    rw [if_neg h1]
    by_cases h2 : ((k : ℤ) - 1) ∈ counts.map Int.ofNat
    · have h2' : (k - 1) ∈ counts := (mem_int_cast_list hk).mp h2
      have hm : counts.foldr max 0 = k - 1 := by
        have hle : counts.foldr max 0 ≤ k - 1 := by omega
        exact le_antisymm hle (le_foldr_max h2')
      simp only [if_pos h2, hmax, hm]
      refine ⟨?_, by simp, ?_⟩
      · constructor
        · intro h; cases h
        · intro h; omega
      · constructor
        · intro h; cases h
        · intro h; exact absurd rfl h.2
    · have h2' : (k - 1) ∉ counts := fun hmem => h2 ((mem_int_cast_list hk).mpr hmem)
      have hmne : counts.foldr max 0 ≠ k - 1 := fun h => h2' (h ▸ foldr_max_mem hcne)
      simp only [if_neg h2, hmax]
      refine ⟨?_, ?_, ?_⟩
      · constructor
        · intro h; cases h
        · intro h; omega
      · constructor
        · intro h; cases h
        · intro h; exact absurd h hmne
      · constructor
        · intro _; exact ⟨by omega, hmne⟩
        · intro _; trivial

/-- Witness for C2 at a concrete two-group solution and selection. -/
theorem result_for_move_max_characterization_witness :
    ((Solution.mk [[0,1,2,3],[4,5,6,7]] ⟨Slot.create_n 8, 4⟩).result_for_move {0,1,4} =
        Result.CORRECT ↔
      maxOverlap (Solution.mk [[0,1,2,3],[4,5,6,7]] ⟨Slot.create_n 8, 4⟩) {0,1,4} = 4) ∧
    ((Solution.mk [[0,1,2,3],[4,5,6,7]] ⟨Slot.create_n 8, 4⟩).result_for_move {0,1,4} =
        Result.OFF_BY_ONE ↔
      maxOverlap (Solution.mk [[0,1,2,3],[4,5,6,7]] ⟨Slot.create_n 8, 4⟩) {0,1,4} = 4 - 1) ∧
    ((Solution.mk [[0,1,2,3],[4,5,6,7]] ⟨Slot.create_n 8, 4⟩).result_for_move {0,1,4} =
        Result.OFF_BY_MORE ↔
      (maxOverlap (Solution.mk [[0,1,2,3],[4,5,6,7]] ⟨Slot.create_n 8, 4⟩) {0,1,4} ≠ 4 ∧
       maxOverlap (Solution.mk [[0,1,2,3],[4,5,6,7]] ⟨Slot.create_n 8, 4⟩) {0,1,4} ≠ 4 - 1)) :=
  result_for_move_max_characterization (Solution.mk [[0,1,2,3],[4,5,6,7]] ⟨Slot.create_n 8, 4⟩)
    {0,1,4} (by decide) (by decide) (by decide) (by decide)

lemma correct_iff_contains_group (sol : Solution) (sel : Finset Slot)
    (hg : ∀ g ∈ sol.groupings, g.Nodup ∧ g.length = sol.params.GROUP_SIZE) :
    sol.result_for_move sel = Result.CORRECT ↔ ∃ g ∈ sol.groupings, g.toFinset ⊆ sel := by
  set k := sol.params.GROUP_SIZE with hkdef
  have hmem : (k ∈ sol.groupings.map (fun g => g.countP (fun s => decide (s ∈ sel)))) ↔
      ∃ g ∈ sol.groupings, g.toFinset ⊆ sel := by
    rw [List.mem_map]
    constructor
    · rintro ⟨g, hgm, hcount⟩
      refine ⟨g, hgm, ?_⟩
      intro x hx
      rw [List.mem_toFinset] at hx
      have hlen : g.countP (fun s => decide (s ∈ sel)) = g.length := by
        rw [hcount, (hg g hgm).2]
      have hall := List.countP_eq_length.mp hlen
      simpa using hall x hx
    · rintro ⟨g, hgm, hsub⟩
      refine ⟨g, hgm, ?_⟩
      have hlen : g.countP (fun s => decide (s ∈ sel)) = g.length :=
        List.countP_eq_length.mpr
          (fun a ha => by simpa using hsub (List.mem_toFinset.mpr ha))
      rw [hlen, (hg g hgm).2]
  unfold Solution.result_for_move
  rw [← hkdef]
  by_cases h : k ∈ sol.groupings.map (fun g => g.countP (fun s => decide (s ∈ sel)))
  · rw [if_pos h]
    exact iff_of_true rfl (hmem.mp h)
  · rw [if_neg h]
    refine iff_of_false ?_ (fun hex => h (hmem.mpr hex))
    split <;> simp

/-- C8 (amended): `result_for_move` returns `CORRECT` iff the selection
contains some whole group; hence for a selection of size at most
`GROUP_SIZE`, `CORRECT` iff the selection equals one group.  (A strict
superset of a group, necessarily larger than `GROUP_SIZE`, also scores
`CORRECT`, as the counterexample below shows.) -/
theorem result_for_move_exact_iff (sol : Solution) (sel : Finset Slot)
    (hg : ∀ g ∈ sol.groupings, g.Nodup ∧ g.length = sol.params.GROUP_SIZE) :
    (sol.result_for_move sel = Result.CORRECT ↔ ∃ g ∈ sol.groupings, g.toFinset ⊆ sel) ∧
    (sel.card ≤ sol.params.GROUP_SIZE →
      (sol.result_for_move sel = Result.CORRECT ↔ ∃ g ∈ sol.groupings, sel = g.toFinset)) := by
  refine ⟨correct_iff_contains_group sol sel hg, fun hcard => ?_⟩
  rw [correct_iff_contains_group sol sel hg]
  constructor
  · rintro ⟨g, hgm, hsub⟩
    refine ⟨g, hgm, ?_⟩
    have h1 : g.toFinset.card = sol.params.GROUP_SIZE := by
      rw [List.toFinset_card_of_nodup (hg g hgm).1, (hg g hgm).2]
    exact (Finset.eq_of_subset_of_card_le hsub (by rw [h1]; exact hcard)).symm
  · rintro ⟨g, hgm, rfl⟩
    exact ⟨g, hgm, subset_rfl⟩

/-- Witness for C8 (amended) at a concrete solution and selection. -/
theorem result_for_move_exact_iff_witness :
    ((Solution.mk [[0,1,2,3],[4,5,6,7]] ⟨Slot.create_n 8, 4⟩).result_for_move {0,1,2,3} =
        Result.CORRECT ↔
      ∃ g ∈ [[0,1,2,3],[4,5,6,7]], (g : List Slot).toFinset ⊆ ({0,1,2,3} : Finset Slot)) ∧
    (({0,1,2,3} : Finset Slot).card ≤ 4 →
      ((Solution.mk [[0,1,2,3],[4,5,6,7]] ⟨Slot.create_n 8, 4⟩).result_for_move {0,1,2,3} =
          Result.CORRECT ↔
        ∃ g ∈ [[0,1,2,3],[4,5,6,7]], ({0,1,2,3} : Finset Slot) = (g : List Slot).toFinset)) :=
  result_for_move_exact_iff (Solution.mk [[0,1,2,3],[4,5,6,7]] ⟨Slot.create_n 8, 4⟩)
    {0,1,2,3} (by decide)

/-- C8 counterexample: a selection that is a strict superset of the group
`{0,1,2,3}` scores `CORRECT` although it equals no group of the solution. -/
theorem result_for_move_superset_cex :
    (Solution.mk [[0,1,2,3],[4,5,6,7]] ⟨Slot.create_n 8, 4⟩).result_for_move {0,1,2,3,4} =
      Result.CORRECT ∧
    ({0,1,2,3} : Finset Slot) ⊂ {0,1,2,3,4} ∧
    ({0,1,2,3,4} : Finset Slot) ≠ ([0,1,2,3] : List Slot).toFinset ∧
    ({0,1,2,3,4} : Finset Slot) ≠ ([4,5,6,7] : List Slot).toFinset := by decide

/-- C6: appending any Move to a State never enlarges the set of Solutions
yielded by `possible_solutions`. -/
theorem possible_solutions_shrink (params : GameParams) (moves : List Move) (m : Move)
    (sol : Solution) (h : sol ∈ (State.mk params (moves ++ [m])).possible_solutions) :
    sol ∈ (State.mk params moves).possible_solutions := by
  simp only [State.possible_solutions, List.mem_filter, List.all_append, Bool.and_eq_true,
    List.all_cons, List.all_nil] at h ⊢
  exact ⟨h.1, h.2.1⟩

/-- Witness for C6: the unique one-group solution survives removing the one
recorded move. -/
theorem possible_solutions_shrink_witness :
    Solution.mk [[0,1,2,3]] (GameParams.mk (Slot.create_n 4) 4) ∈
      (State.mk (GameParams.mk (Slot.create_n 4) 4) []).possible_solutions :=
  possible_solutions_shrink (GameParams.mk (Slot.create_n 4) 4) []
    (Move.mk {0,1,2,3} Result.CORRECT) (Solution.mk [[0,1,2,3]] (GameParams.mk (Slot.create_n 4) 4))
    (by decide)

/-- C3: evaluating the code at the spec's degenerate one-group test case:
4 items, `GROUP_SIZE` 4, empty history, error budget 0.  The code returns
`false` (the budget-0 check fires before any move can be made, and the
all-slots selection is excluded from the candidates in any case), although
the specification demands `true`. -/
theorem has_winning_strat_one_group_budget_zero :
    has_winning_strat (State.mk (GameParams.mk (Slot.create_n 4) 4) []) 0 = false := by decide

/-! ## Structure of the generated selections -/

lemma mem_unionOfLists {cs : List (List Slot)} {x : Slot} :
    x ∈ unionOfLists cs ↔ ∃ c ∈ cs, x ∈ c := by
  induction cs with
  | nil => simp [unionOfLists]
  | cons c rest ih =>
    simp only [unionOfLists, List.foldr_cons, Finset.mem_union, List.mem_toFinset] at *
    constructor
    · rintro (hx | hx)
      · exact ⟨c, by simp, hx⟩
      · rcases ih.mp hx with ⟨d, hd, hxd⟩
        exact ⟨d, by simp [hd], hxd⟩
    · rintro ⟨d, hd, hxd⟩
      rcases List.mem_cons.mp hd with rfl | hd
      · exact Or.inl hxd
      · exact Or.inr (ih.mpr ⟨d, hd, hxd⟩)

lemma unionOfLists_cons {c : List Slot} {rest : List (List Slot)} :
    unionOfLists (c :: rest) = c.toFinset ∪ unionOfLists rest := rfl

lemma gps_aux_card_subset :
    ∀ (cs : List (List Slot)), (∀ c ∈ cs, c.Nodup) →
      cs.Pairwise (fun c d => ∀ x ∈ c, x ∉ d) →
      ∀ (n : ℕ) (sel : Finset Slot), sel ∈ get_possible_selections_aux cs n →
        sel.card = n ∧ sel ⊆ unionOfLists cs := by
  intro cs
  induction cs with
  | nil =>
    intro _ _ n sel hmem
    rcases n with _ | n
    · simp only [get_possible_selections_aux, List.mem_singleton] at hmem
      subst hmem
      simp
    · simp [get_possible_selections_aux] at hmem
  | cons c rest ih =>
    intro hnodup hdisj n sel hmem
    rcases n with _ | n
    · simp only [get_possible_selections_aux, List.mem_singleton] at hmem
      subst hmem
      simp
    · simp only [get_possible_selections_aux, List.mem_flatMap, List.mem_map,
        List.mem_range] at hmem
      rcases hmem with ⟨i, hi, further, hfurther, rfl⟩
      have hile : i ≤ c.length := by omega
      have hilen : i ≤ n + 1 := by omega
      have hrestn : ∀ d ∈ rest, d.Nodup := fun d hd => hnodup d (List.mem_cons_of_mem c hd)
      have hrestd : rest.Pairwise (fun c d => ∀ x ∈ c, x ∉ d) :=
        (List.pairwise_cons.mp hdisj).2
      have hcd : ∀ d ∈ rest, ∀ x ∈ c, x ∉ d := (List.pairwise_cons.mp hdisj).1
      rcases ih hrestn hrestd (n + 1 - i) further hfurther with ⟨hcard, hsub⟩
      have htake_nodup : (c.take i).Nodup :=
        (List.take_sublist i c).nodup (hnodup c (by simp))
      have htake_card : (c.take i).toFinset.card = i := by
        rw [List.toFinset_card_of_nodup htake_nodup, List.length_take]
        omega
      have hdisj2 : Disjoint (c.take i).toFinset further := by
        rw [Finset.disjoint_left]
        intro x hx hxf
        rcases mem_unionOfLists.mp (hsub hxf) with ⟨d, hd, hxd⟩
        exact hcd d hd x (List.take_subset i c (List.mem_toFinset.mp hx)) hxd
      constructor
      · rw [Finset.card_union_of_disjoint hdisj2, htake_card, hcard]
        omega
      · rw [unionOfLists_cons]
        exact Finset.union_subset_union
          (by intro x hx; rw [List.mem_toFinset] at *; exact List.take_subset i c hx)
          hsub

lemma finsetToList_nodup (F : Finset Slot) : (finsetToList F).Nodup :=
  List.Nodup.filter _ (List.nodup_range _)

lemma mem_finsetToList {F : Finset Slot} {x : Slot} : x ∈ finsetToList F ↔ x ∈ F := by
  constructor
  · intro h
    simpa using (List.mem_filter.mp h).2
  · intro h
    refine List.mem_filter.mpr ⟨List.mem_range.mpr (Nat.lt_succ_of_le ?_), by simpa⟩
    exact Finset.le_sup (f := id) h

lemma basis_list_mem_form {sets : Finset (Finset Slot)} {c : List Slot}
    (hc : c ∈ basis_list sets) :
    ∃ x ∈ finsetToList (sets.sup id),
      c = (finsetToList (sets.sup id)).filter
        (fun y => decide (signature sets y = signature sets x)) := by
  simp only [basis_list, List.mem_dedup, List.mem_map] at hc
  rcases hc with ⟨x, hx, rfl⟩
  exact ⟨x, hx, rfl⟩

lemma basis_list_nodup {sets : Finset (Finset Slot)} {c : List Slot}
    (hc : c ∈ basis_list sets) : c.Nodup := by
  rcases basis_list_mem_form hc with ⟨x, hx, rfl⟩
  exact (finsetToList_nodup _).filter _

lemma mem_basis_class {sets : Finset (Finset Slot)} {c : List Slot} {y : Slot}
    (hc : c ∈ basis_list sets) (hy : y ∈ c) :
    y ∈ sets.sup id ∧
      ∃ x ∈ finsetToList (sets.sup id),
        c = (finsetToList (sets.sup id)).filter
          (fun z => decide (signature sets z = signature sets x)) ∧
        signature sets y = signature sets x := by
  rcases basis_list_mem_form hc with ⟨x, hx, rfl⟩
  rw [List.mem_filter] at hy
  refine ⟨mem_finsetToList.mp hy.1, x, hx, rfl, by simpa using hy.2⟩

lemma basis_list_pairwise_disjoint (sets : Finset (Finset Slot)) :
    (basis_list sets).Pairwise (fun c d => ∀ x ∈ c, x ∉ d) := by
  have hnd : (basis_list sets).Nodup := by
    simp only [basis_list]
    exact List.nodup_dedup _
  refine hnd.imp_of_mem ?_
  intro c d hc hd hne x hxc hxd
  rcases mem_basis_class hc hxc with ⟨_, x1, hx1, hceq, hsig1⟩
  rcases mem_basis_class hd hxd with ⟨_, x2, hx2, hdeq, hsig2⟩
  apply hne
  rw [hceq, hdeq]
  have : signature sets x1 = signature sets x2 := by rw [← hsig1, ← hsig2]
  refine List.filter_congr (fun z hz => ?_)
  simp [this]

lemma basis_list_union (sets : Finset (Finset Slot)) :
    unionOfLists (basis_list sets) = sets.sup id := by
  ext x
  rw [mem_unionOfLists]
  constructor
  · rintro ⟨c, hc, hxc⟩
    exact (mem_basis_class hc hxc).1
  · intro hx
    have hx' : x ∈ finsetToList (sets.sup id) := mem_finsetToList.mpr hx
    refine ⟨(finsetToList (sets.sup id)).filter
      (fun y => decide (signature sets y = signature sets x)), ?_, ?_⟩
    · simp only [basis_list, List.mem_dedup, List.mem_map]
      exact ⟨x, hx', rfl⟩
    · rw [List.mem_filter]
      exact ⟨hx', by simp⟩

lemma mem_get_possible_selections {st : State} {sel : Finset Slot}
    (h : sel ∈ st.get_possible_selections) :
    sel ∉ st.prev_selections ∧ sel.card = st.params.GROUP_SIZE ∧
      sel ⊆ st.slot_universe := by
  rw [State.get_possible_selections, List.mem_filter] at h
  rcases h with ⟨hmem, hnot⟩
  have hnot' : sel ∉ st.prev_selections := by simpa using hnot
  have h2 := gps_aux_card_subset (basis_list st.prev_selections)
    (fun c hc => basis_list_nodup hc) (basis_list_pairwise_disjoint _)
    st.params.GROUP_SIZE sel hmem
  rw [basis_list_union] at h2
  exact ⟨hnot', h2.1, h2.2⟩

/-! ## The search measure decreases along every recursive call -/

lemma prev_selections_play (st : State) (sel : Finset Slot) (r : Result) :
    (st.play sel r).prev_selections = insert sel st.prev_selections := by
  ext t
  simp only [State.prev_selections, State.play, List.map_append, List.map_cons, List.map_nil,
    List.toFinset_append, Finset.mem_union, Finset.mem_insert, List.mem_toFinset,
    Finset.mem_singleton, List.toFinset_cons, List.toFinset_nil, Finset.mem_insert]
  constructor
  · rintro ((h | h) | h)
    · exact Or.inr (Or.inl h)
    · simp only [Finset.not_mem_empty, or_false] at h
      exact Or.inl h
    · exact Or.inr (Or.inr h)
  · rintro (h | h | h)
    · exact Or.inl (Or.inr (by simp [h]))
    · exact Or.inl (Or.inl h)
    · exact Or.inr h

lemma slot_universe_play {st : State} {sel : Finset Slot} (r : Result)
    (hsub : sel ⊆ st.slot_universe) :
    (st.play sel r).slot_universe = st.slot_universe := by
  rw [State.slot_universe, prev_selections_play, Finset.sup_insert]
  exact sup_eq_right.mpr hsub

lemma measure_play_lt {st : State} {sel : Finset Slot}
    (h : sel ∈ st.get_possible_selections) (r : Result) :
    (st.play sel r).measure < st.measure := by
  rcases mem_get_possible_selections h with ⟨hnot, hcard, hsub⟩
  have huniv : (st.play sel r).slot_universe = st.slot_universe :=
    slot_universe_play r hsub
  have hparams : (st.play sel r).params = st.params := rfl
  rw [State.measure, State.measure, huniv, hparams, prev_selections_play]
  apply Finset.card_lt_card
  constructor
  · intro t ht
    rw [Finset.mem_filter] at ht ⊢
    exact ⟨ht.1, fun hmem => ht.2 (Finset.mem_insert_of_mem hmem)⟩
  · intro hcontra
    have hselmem : sel ∈ (st.slot_universe.powersetCard st.params.GROUP_SIZE).filter
        (fun s => s ∉ st.prev_selections) := by
      rw [Finset.mem_filter, Finset.mem_powersetCard]
      exact ⟨⟨hsub, hcard⟩, hnot⟩
    have := hcontra hselmem
    rw [Finset.mem_filter] at this
    exact this.2 (Finset.mem_insert_self sel _)

lemma measure_pos_of_mem {st : State} {sel : Finset Slot}
    (h : sel ∈ st.get_possible_selections) : 0 < st.measure := by
  rcases mem_get_possible_selections h with ⟨hnot, hcard, hsub⟩
  rw [State.measure]
  apply Finset.card_pos.mpr
  refine ⟨sel, ?_⟩
  rw [Finset.mem_filter, Finset.mem_powersetCard]
  exact ⟨⟨hsub, hcard⟩, hnot⟩

/-! ## The equivalence reducer partitions the item set -/

/-- C7: when the given selections include the universal Item set (and are
contained in it), the classes returned by `smallest_basis` are pairwise
disjoint, their union is the full Item set, and two items share a class iff
they have the same participation signature. -/
theorem smallest_basis_partition (sets : Finset (Finset Slot)) (U : Finset Slot)
    (hU : U ∈ sets) (hsub : ∀ s ∈ sets, s ⊆ U) :
    (∀ c1 ∈ smallest_basis sets, ∀ c2 ∈ smallest_basis sets, c1 ≠ c2 → Disjoint c1 c2) ∧
    (smallest_basis sets).sup id = U ∧
    (∀ x ∈ U, ∀ y ∈ U,
      ((∃ c ∈ smallest_basis sets, x ∈ c ∧ y ∈ c) ↔ signature sets x = signature sets y)) := by
  have hitems : sets.sup id = U :=
    le_antisymm (Finset.sup_le (fun s hs => hsub s hs)) (Finset.le_sup (f := id) hU)
  refine ⟨?_, ?_, ?_⟩
  · intro c1 hc1 c2 hc2 hne
    rcases Finset.mem_image.mp hc1 with ⟨x1, hx1, rfl⟩
    rcases Finset.mem_image.mp hc2 with ⟨x2, hx2, rfl⟩
    rw [Finset.disjoint_left]
    intro a ha ha2
    rw [Finset.mem_filter] at ha ha2
    apply hne
    have hx12 : signature sets x1 = signature sets x2 := by rw [← ha.2, ← ha2.2]
    apply Finset.filter_congr
    intro z hz
    rw [hx12]
  · apply le_antisymm
    · apply Finset.sup_le
      intro c hc
      rcases Finset.mem_image.mp hc with ⟨x, hx, rfl⟩
      exact le_trans (Finset.filter_subset _ _) (le_of_eq hitems)
    · intro x hx
      have hx' : x ∈ sets.sup id := hitems ▸ hx
      rw [Finset.mem_sup]
      refine ⟨(sets.sup id).filter (fun y => signature sets y = signature sets x),
        Finset.mem_image_of_mem _ hx', ?_⟩
      rw [id, Finset.mem_filter]
      exact ⟨hx', rfl⟩
  · intro x hx y hy
    constructor
    · rintro ⟨c, hc, hxc, hyc⟩
      rcases Finset.mem_image.mp hc with ⟨z, hz, rfl⟩
      rw [Finset.mem_filter] at hxc hyc
      rw [hxc.2, hyc.2]
    · intro hsig
      refine ⟨(sets.sup id).filter (fun z => signature sets z = signature sets x),
        Finset.mem_image_of_mem _ (hitems ▸ hx), ?_, ?_⟩
      · rw [Finset.mem_filter]
        exact ⟨hitems ▸ hx, rfl⟩
      · rw [Finset.mem_filter]
        exact ⟨hitems ▸ hy, hsig.symm⟩

/-- Witness for C7 at the concrete selection set `{{0,1}, {0,1,2,3}}` with
universal set `{0,1,2,3}`. -/
theorem smallest_basis_partition_witness :
    (∀ c1 ∈ smallest_basis {{0,1}, {0,1,2,3}}, ∀ c2 ∈ smallest_basis {{0,1}, {0,1,2,3}},
      c1 ≠ c2 → Disjoint c1 c2) ∧
    (smallest_basis {{0,1}, {0,1,2,3}}).sup id = ({0,1,2,3} : Finset Slot) ∧
    (∀ x ∈ ({0,1,2,3} : Finset Slot), ∀ y ∈ ({0,1,2,3} : Finset Slot),
      ((∃ c ∈ smallest_basis {{0,1}, {0,1,2,3}}, x ∈ c ∧ y ∈ c) ↔
        signature {{0,1}, {0,1,2,3}} x = signature {{0,1}, {0,1,2,3}} y)) :=
  smallest_basis_partition {{0,1}, {0,1,2,3}} {0,1,2,3} (by decide) (by decide)

/-! ## Exact characterization of the generated selections -/

lemma takeUnion_cons {c : List Slot} {rest : List (List Slot)} {i : ℕ} {ns : List ℕ} :
    takeUnion (c :: rest) (i :: ns) = (c.take i).toFinset ∪ takeUnion rest ns := rfl

lemma takeUnion_eq_empty {cs : List (List Slot)} {ns : List ℕ}
    (hsum : ns.sum = 0) : takeUnion cs ns = ∅ := by
  induction cs generalizing ns with
  | nil => simp [takeUnion]
  | cons c rest ih =>
    rcases ns with _ | ⟨i, ns⟩
    · simp [takeUnion]
    · have hi : i = 0 ∧ ns.sum = 0 := by
        rw [List.sum_cons] at hsum
        omega
      rw [takeUnion_cons, hi.1, ih hi.2]
      simp

lemma forall₂_le_zeros : ∀ (cs : List (List Slot)),
    List.Forall₂ (· ≤ ·) (List.replicate cs.length 0) (cs.map List.length)
  | [] => List.Forall₂.nil
  | c :: rest => List.Forall₂.cons (Nat.zero_le _) (forall₂_le_zeros rest)

lemma gps_aux_mem_iff :
    ∀ (cs : List (List Slot)) (n : ℕ) (sel : Finset Slot),
      sel ∈ get_possible_selections_aux cs n ↔
        ∃ ns : List ℕ, ns.length = cs.length ∧
          List.Forall₂ (· ≤ ·) ns (cs.map List.length) ∧
          ns.sum = n ∧ sel = takeUnion cs ns := by
  intro cs
  induction cs with
  | nil =>
    intro n sel
    rcases n with _ | n
    · simp only [get_possible_selections_aux, List.mem_singleton]
      constructor
      · rintro rfl
        exact ⟨[], rfl, List.Forall₂.nil, rfl, rfl⟩
      · rintro ⟨ns, hlen, _, hsum, rfl⟩
        exact takeUnion_eq_empty hsum
    · simp only [get_possible_selections_aux, List.not_mem_nil, false_iff, not_exists]
      rintro ns ⟨hlen, _, hsum, _⟩
      rw [List.length_eq_zero.mp hlen] at hsum
      simp at hsum
  | cons c rest ih =>
    intro n sel
    rcases n with _ | n
    · simp only [get_possible_selections_aux, List.mem_singleton]
      constructor
      · rintro rfl
        refine ⟨List.replicate (c :: rest).length 0, by simp, forall₂_le_zeros _, by simp, ?_⟩
        rw [takeUnion_eq_empty (by simp)]
      · rintro ⟨ns, hlen, _, hsum, rfl⟩
        exact takeUnion_eq_empty hsum
    · simp only [get_possible_selections_aux, List.mem_flatMap, List.mem_map, List.mem_range]
      constructor
      · rintro ⟨i, hi, further, hfurther, rfl⟩
        rcases (ih (n + 1 - i) further).mp hfurther with ⟨ns, hlen, hf, hsum, rfl⟩
        refine ⟨i :: ns, by simp [hlen], ?_, ?_, takeUnion_cons.symm⟩
        · rw [List.map_cons]
          exact List.Forall₂.cons (by omega) hf
        · rw [List.sum_cons]
          omega
      · rintro ⟨ns, hlen, hf, hsum, rfl⟩
        rcases ns with _ | ⟨i, ns⟩
        · simp at hlen
        · rw [List.map_cons] at hf
          rcases List.forall₂_cons.mp hf with ⟨hile, hf'⟩
          rw [List.sum_cons] at hsum
          refine ⟨i, by omega, takeUnion rest ns, ?_, takeUnion_cons⟩
          exact (ih (n + 1 - i) _).mpr ⟨ns, by simpa using hlen, hf', by omega, rfl⟩

lemma not_mem_prev_selections_iff {st : State} {sel : Finset Slot} :
    sel ∉ st.prev_selections ↔
      (∀ m ∈ st.moves, sel ≠ m.selection) ∧ sel ≠ st.params.slots.toFinset := by
  rw [State.prev_selections]
  simp only [Finset.mem_union, Finset.mem_singleton, List.mem_toFinset, List.mem_map, not_or,
    not_exists]
  constructor
  · rintro ⟨h1, h2⟩
    refine ⟨fun m hm heq => ?_, h2⟩
    exact (h1 m) ⟨hm, heq.symm⟩
  · rintro ⟨h1, h2⟩
    refine ⟨fun m ⟨hm, heq⟩ => h1 m hm heq.symm, h2⟩

/-- C4 (amended): `get_possible_selections` yields exactly the selections
obtained by taking, from each equivalence class in order, an initial segment
of between `0` and the class size members with sizes summing to `GROUP_SIZE`,
minus precisely those selections equal to a selection already made in the
move history OR equal to the universal slot set `frozenset(params.slots)`
(the latter exclusion is missing from the original claim). -/
theorem get_possible_selections_characterization (st : State) (sel : Finset Slot) :
    sel ∈ st.get_possible_selections ↔
      ((∃ ns : List ℕ, ns.length = (basis_list st.prev_selections).length ∧
          List.Forall₂ (· ≤ ·) ns ((basis_list st.prev_selections).map List.length) ∧
          ns.sum = st.params.GROUP_SIZE ∧ sel = takeUnion (basis_list st.prev_selections) ns) ∧
        (∀ m ∈ st.moves, sel ≠ m.selection) ∧ sel ≠ st.params.slots.toFinset) := by
  rw [State.get_possible_selections, List.mem_filter, gps_aux_mem_iff]
  rw [show ((decide (sel ∉ st.prev_selections)) = true ↔ sel ∉ st.prev_selections)
    from by simp]
  rw [not_mem_prev_selections_iff]

/-- C4 counterexample: for the 4-slot game with an empty move history, the
class-wise generator emits the universal selection `{0,1,2,3}`, which was
never made in any previous move, yet `get_possible_selections` withholds it
and yields nothing. -/
theorem get_possible_selections_universal_cex :
    (State.mk (GameParams.mk (Slot.create_n 4) 4) []).get_possible_selections = [] ∧
    get_possible_selections_aux
        (basis_list (State.mk (GameParams.mk (Slot.create_n 4) 4) []).prev_selections) 4 =
      [{0,1,2,3}] := by decide

/-! ## The fueled search always has enough fuel at `measure + 1` -/

lemma optionAll_eq_some_all {α : Type} {f : α → Option Bool} {g : α → Bool} :
    ∀ {l : List α}, (∀ a ∈ l, f a = some (g a)) → optionAll f l = some (l.all g) := by
  intro l
  induction l with
  | nil => intro _; rfl
  | cons a l ih =>
    intro h
    rw [List.all_cons]
    simp only [optionAll, h a (List.mem_cons_self a l)]
    cases hga : g a
    · rfl
    · simp only [Bool.true_and]
      exact ih (fun x hx => h x (List.mem_cons_of_mem a hx))

lemma optionAny_eq_some_any {α : Type} {f : α → Option Bool} {g : α → Bool} :
    ∀ {l : List α}, (∀ a ∈ l, f a = some (g a)) → optionAny f l = some (l.any g) := by
  intro l
  induction l with
  | nil => intro _; rfl
  | cons a l ih =>
    intro h
    rw [List.any_cons]
    simp only [optionAny, h a (List.mem_cons_self a l)]
    cases hga : g a
    · simp only [Bool.false_or]
      exact ih (fun x hx => h x (List.mem_cons_of_mem a hx))
    · rfl

lemma gps_empty_of_measure_zero {st : State} (h : st.measure = 0) :
    st.get_possible_selections = [] := by
  cases hgps : st.get_possible_selections with
  | nil => rfl
  | cons s l =>
    have hpos := measure_pos_of_mem (hgps ▸ List.mem_cons_self s l)
    omega

lemma hws_fuel_step (st : State) (n : ℤ) (f : ℕ)
    (hrec : ∀ sel ∈ st.get_possible_selections, ∀ r ∈ st.get_possible_results sel,
        has_winning_strat_fuel f (st.play sel r) (next_tries r n) =
          some (has_winning_strat (st.play sel r) (next_tries r n))) :
    has_winning_strat_fuel (f + 1) st n =
      some (if st.moves.countP (fun m => decide (m.result = Result.CORRECT)) =
            st.params.slots.length / st.params.GROUP_SIZE then true
        else if n = 0 then false
        else st.get_possible_selections.any (fun sel =>
          (st.get_possible_results sel).all (fun r =>
            has_winning_strat (st.play sel r) (next_tries r n)))) := by
  by_cases hwin : st.moves.countP (fun m => decide (m.result = Result.CORRECT)) =
      st.params.slots.length / st.params.GROUP_SIZE
  · simp only [has_winning_strat_fuel, if_pos hwin]
  · by_cases hn : n = 0
    · simp only [has_winning_strat_fuel, if_neg hwin, if_pos hn]
    · simp only [has_winning_strat_fuel, if_neg hwin, if_neg hn]
      apply optionAny_eq_some_any
      intro sel hsel
      apply optionAll_eq_some_all
      intro r hr
      exact hrec sel hsel r hr

lemma hws_fuel_eq_some :
    ∀ (k : ℕ) (st : State) (n : ℤ) (fuel : ℕ), st.measure ≤ k → st.measure < fuel →
      has_winning_strat_fuel fuel st n = some (has_winning_strat st n) := by
  intro k
  induction k with
  | zero =>
    intro st n fuel hk hfuel
    rcases fuel with _ | f
    · omega
    have hμ : st.measure = 0 := Nat.le_zero.mp hk
    have hgps : st.get_possible_selections = [] := gps_empty_of_measure_zero hμ
    have hrec : ∀ (f' : ℕ), ∀ sel ∈ st.get_possible_selections,
        ∀ r ∈ st.get_possible_results sel,
        has_winning_strat_fuel f' (st.play sel r) (next_tries r n) =
          some (has_winning_strat (st.play sel r) (next_tries r n)) := by
      intro f' sel hsel
      rw [hgps] at hsel
      exact absurd hsel (List.not_mem_nil sel)
    rw [hws_fuel_step st n f (hrec f), has_winning_strat, hμ,
      hws_fuel_step st n 0 (hrec 0)]
    rfl
  | succ k ih =>
    intro st n fuel hk hfuel
    rcases fuel with _ | f
    · omega
    have hrec : ∀ (f' : ℕ), st.measure ≤ f' → ∀ sel ∈ st.get_possible_selections,
        ∀ r ∈ st.get_possible_results sel,
        has_winning_strat_fuel f' (st.play sel r) (next_tries r n) =
          some (has_winning_strat (st.play sel r) (next_tries r n)) := by
      intro f' hf' sel hsel r hr
      have hlt := measure_play_lt hsel r
      exact ih (st.play sel r) (next_tries r n) f' (by omega) (by omega)
    rw [hws_fuel_step st n f (hrec f (by omega)), has_winning_strat,
      hws_fuel_step st n st.measure (hrec st.measure le_rfl)]
    rfl

/-- One-step unfolding of `has_winning_strat`: it satisfies exactly the
recurrence of the Python function. -/
lemma has_winning_strat_eq (st : State) (n : ℤ) :
    has_winning_strat st n =
      if st.moves.countP (fun m => decide (m.result = Result.CORRECT)) =
          st.params.slots.length / st.params.GROUP_SIZE then true
      else if n = 0 then false
      else st.get_possible_selections.any (fun sel =>
        (st.get_possible_results sel).all (fun r =>
          has_winning_strat (st.play sel r) (next_tries r n))) := by
  have hrec : ∀ sel ∈ st.get_possible_selections, ∀ r ∈ st.get_possible_results sel,
      has_winning_strat_fuel st.measure (st.play sel r) (next_tries r n) =
        some (has_winning_strat (st.play sel r) (next_tries r n)) := by
    intro sel hsel r hr
    exact hws_fuel_eq_some (st.play sel r).measure _ _ _ le_rfl (measure_play_lt hsel r)
  rw [has_winning_strat, hws_fuel_step st n st.measure hrec]
  rfl

/-- C1: for every state with valid game parameters and every error budget,
`has_winning_strat` implements exactly the specified state machine: true when
the count of `CORRECT` moves equals `item count / GROUP_SIZE`; false when the
budget is `0` and that does not hold; otherwise true iff some generated
selection wins against every possible result of that selection, with the
budget decremented exactly when the result is not `CORRECT` — and false when
no selection is a winning move, including when no selections remain. -/
theorem has_winning_strat_spec (st : State) (n : ℤ)
    (hk : 0 < st.params.GROUP_SIZE)
    (hdvd : st.params.GROUP_SIZE ∣ st.params.slots.length) :
    has_winning_strat st n = true ↔
      (st.moves.countP (fun m => decide (m.result = Result.CORRECT)) =
          st.params.slots.length / st.params.GROUP_SIZE ∨
        (n ≠ 0 ∧ ∃ sel ∈ st.get_possible_selections,
          ∀ r ∈ st.get_possible_results sel,
            has_winning_strat (st.play sel r) (next_tries r n) = true)) := by
  rw [has_winning_strat_eq st n]
  by_cases hwin : st.moves.countP (fun m => decide (m.result = Result.CORRECT)) =
      st.params.slots.length / st.params.GROUP_SIZE
  · simp [hwin]
  · by_cases hn : n = 0
    · simp [hwin, hn]
    · simp only [if_neg hwin, if_neg hn, List.any_eq_true, List.all_eq_true]
      constructor
      · rintro ⟨sel, hsel, hall⟩
        exact Or.inr ⟨hn, sel, hsel, hall⟩
      · rintro (h | ⟨_, sel, hsel, hall⟩)
        · exact absurd h hwin
        · exact ⟨sel, hsel, hall⟩

/-- Witness for C1 at a concrete already-won state. -/
theorem has_winning_strat_spec_witness :
    has_winning_strat
      (State.mk (GameParams.mk (Slot.create_n 4) 4) [Move.mk {0,1,2,3} Result.CORRECT]) 5 =
      true :=
  (has_winning_strat_spec
      (State.mk (GameParams.mk (Slot.create_n 4) 4) [Move.mk {0,1,2,3} Result.CORRECT]) 5
      (by decide) (by decide)).mpr (Or.inl (by decide))

/-- C9: the recursion of `has_winning_strat` terminates for every state with
valid game parameters and every integer error budget (negative budgets
included): the fueled search, whose fuel bounds the recursion depth, already
reaches the answer with fuel `State.measure + 1`, the number of not yet used
`GROUP_SIZE`-sized selections plus one. -/
theorem has_winning_strat_fuel_terminates (st : State) (n : ℤ)
    (hk : 0 < st.params.GROUP_SIZE)
    (hdvd : st.params.GROUP_SIZE ∣ st.params.slots.length) :
    has_winning_strat_fuel (st.measure + 1) st n = some (has_winning_strat st n) :=
  hws_fuel_eq_some st.measure st n (st.measure + 1) le_rfl (Nat.lt_succ_self _)

/-- Witness for C9 at a concrete state with a negative budget. -/
theorem has_winning_strat_fuel_terminates_witness :
    has_winning_strat_fuel ((State.mk (GameParams.mk (Slot.create_n 4) 4) []).measure + 1)
        (State.mk (GameParams.mk (Slot.create_n 4) 4) []) (-1) =
      some (has_winning_strat (State.mk (GameParams.mk (Slot.create_n 4) 4) []) (-1)) :=
  has_winning_strat_fuel_terminates (State.mk (GameParams.mk (Slot.create_n 4) 4) []) (-1)
    (by decide) (by decide)

lemma next_tries_succ (r : Result) (b : ℤ) :
    next_tries r (b + 1) = next_tries r b + 1 := by
  unfold next_tries
  by_cases hr : r = Result.CORRECT
  · simp [hr]
  · simp only [if_neg hr]
    ring

lemma hws_mono :
    ∀ (k : ℕ) (st : State), st.measure ≤ k → ∀ (b : ℤ), 0 ≤ b →
      has_winning_strat st b = true → has_winning_strat st (b + 1) = true := by
  intro k
  induction k with
  | zero =>
    intro st hk b hb h
    rw [has_winning_strat_eq] at h ⊢
    by_cases hwin : st.moves.countP (fun m => decide (m.result = Result.CORRECT)) =
        st.params.slots.length / st.params.GROUP_SIZE
    · simp [hwin]
    · rw [if_neg hwin] at h
      rw [gps_empty_of_measure_zero (Nat.le_zero.mp hk)] at h
      by_cases hb0 : b = 0
      · rw [if_pos hb0] at h
        cases h
      · rw [if_neg hb0] at h
        simp at h
  | succ k ih =>
    intro st hk b hb h
    rw [has_winning_strat_eq] at h ⊢
    by_cases hwin : st.moves.countP (fun m => decide (m.result = Result.CORRECT)) =
        st.params.slots.length / st.params.GROUP_SIZE
    · simp [hwin]
    · rw [if_neg hwin] at h ⊢
      by_cases hb0 : b = 0
      · rw [if_pos hb0] at h
        cases h
      · rw [if_neg hb0] at h
        have hb1 : ¬ (b + 1 = 0) := by omega
        rw [if_neg hb1]
        rw [List.any_eq_true] at h ⊢
        rcases h with ⟨sel, hsel, hall⟩
        refine ⟨sel, hsel, ?_⟩
        rw [List.all_eq_true] at hall ⊢
        intro r hr
        rw [next_tries_succ]
        have hlt := measure_play_lt hsel r
        have hnext_nonneg : 0 ≤ next_tries r b := by
          unfold next_tries
          by_cases hrc : r = Result.CORRECT
          · simp [hrc]; omega
          · simp [hrc]; omega
        exact ih (st.play sel r) (by omega) (next_tries r b) hnext_nonneg (hall r hr)

/-! ## The degenerate one-group game -/

/-- C10 (amended): for a state whose duplicate-free slot list has exactly
`GROUP_SIZE` items, whose recorded selections are all subsets of the slot
set, and whose history contains no `CORRECT` move, `get_possible_selections`
yields no selection at all (the only size-`GROUP_SIZE` selection is the
universal slot set, which is always excluded), and `has_winning_strat`
returns `false` for every error budget.  (Without the subset condition on
recorded selections the original claim fails, see the counterexample.) -/
theorem degenerate_state_no_selections (st : State)
    (hnodup : st.params.slots.Nodup)
    (hlen : st.params.slots.length = st.params.GROUP_SIZE)
    (hk : 0 < st.params.GROUP_SIZE)
    (hmoves : ∀ m ∈ st.moves, m.selection ⊆ st.params.slots.toFinset)
    (hnc : ∀ m ∈ st.moves, m.result ≠ Result.CORRECT) :
    st.get_possible_selections = [] ∧ ∀ b : ℤ, has_winning_strat st b = false := by
  have huniv : st.slot_universe = st.params.slots.toFinset := by
    apply le_antisymm
    · apply Finset.sup_le
      intro t ht
      rw [State.prev_selections, Finset.mem_union, Finset.mem_singleton,
        List.mem_toFinset] at ht
      rcases ht with ht | rfl
      · rcases List.mem_map.mp ht with ⟨m, hm, rfl⟩
        exact hmoves m hm
      · exact le_rfl
    · apply Finset.le_sup (f := id)
      rw [State.prev_selections, Finset.mem_union, Finset.mem_singleton]
      exact Or.inr rfl
  have hcardU : st.params.slots.toFinset.card = st.params.GROUP_SIZE := by
    rw [List.toFinset_card_of_nodup hnodup, hlen]
  have hgps : st.get_possible_selections = [] := by
    rw [List.eq_nil_iff_forall_not_mem]
    intro sel hsel
    rcases mem_get_possible_selections hsel with ⟨hnot, hcard, hsub⟩
    rw [huniv] at hsub
    have hequ : sel = st.params.slots.toFinset :=
      Finset.eq_of_subset_of_card_le hsub (by omega)
    apply hnot
    rw [hequ, State.prev_selections, Finset.mem_union, Finset.mem_singleton]
    exact Or.inr rfl
  refine ⟨hgps, fun b => ?_⟩
  rw [has_winning_strat_eq]
  have hcount : st.moves.countP (fun m => decide (m.result = Result.CORRECT)) = 0 := by
    rw [List.countP_eq_zero]
    intro m hm
    simpa using hnc m hm
  have hgroups : st.params.slots.length / st.params.GROUP_SIZE = 1 := by
    rw [hlen, Nat.div_self hk]
  rw [if_neg (by omega : ¬ (st.moves.countP (fun m => decide (m.result = Result.CORRECT)) =
      st.params.slots.length / st.params.GROUP_SIZE))]
  by_cases hb : b = 0
  · rw [if_pos hb]
  · rw [if_neg hb, hgps]
    rfl

/-- Witness for C10 (amended) at a concrete degenerate state with one
in-bounds non-`CORRECT` move and error budget 7. -/
theorem degenerate_state_no_selections_witness :
    (State.mk (GameParams.mk (Slot.create_n 4) 4)
        [Move.mk {0,1} Result.OFF_BY_MORE]).get_possible_selections = [] ∧
    has_winning_strat (State.mk (GameParams.mk (Slot.create_n 4) 4)
        [Move.mk {0,1} Result.OFF_BY_MORE]) 7 = false :=
  ⟨(degenerate_state_no_selections
      (State.mk (GameParams.mk (Slot.create_n 4) 4) [Move.mk {0,1} Result.OFF_BY_MORE])
      (by decide) (by decide) (by decide) (by decide) (by decide)).1,
   (degenerate_state_no_selections
      (State.mk (GameParams.mk (Slot.create_n 4) 4) [Move.mk {0,1} Result.OFF_BY_MORE])
      (by decide) (by decide) (by decide) (by decide) (by decide)).2 7⟩

/-- C10 counterexample: a state whose item count equals `GROUP_SIZE` and
whose history has no `CORRECT` move, but whose recorded selection mentions
slots outside the slot list: `get_possible_selections` does yield selections,
and — the history being inconsistent, so that every possible-result set is
empty — `has_winning_strat` returns `true` at budget 1. -/
theorem degenerate_state_cex :
    (State.mk (GameParams.mk (Slot.create_n 4) 4)
        [Move.mk {4,5,6,7} Result.OFF_BY_ONE]).get_possible_selections ≠ [] ∧
    has_winning_strat (State.mk (GameParams.mk (Slot.create_n 4) 4)
        [Move.mk {4,5,6,7} Result.OFF_BY_ONE]) 1 = true := by decide

/-! ## The 8-slot game and the error-budget boundary -/

/-- C5 counterexample: for 8 items, `GROUP_SIZE` 4 and an empty history, an
error budget of 1 does NOT yield a winning strategy, contrary to the claimed
boundary: the forced first selection can come back `OFF_BY_ONE`, which
exhausts the budget before the ambiguity is resolved. -/
theorem has_winning_strat_eight_budget_one_cex :
    has_winning_strat (State.mk (GameParams.mk (Slot.create_n 8) 4) []) 1 = false := by decide

/-- C5 (amended): for 8 items, `GROUP_SIZE` 4 and an empty history, the
search returns `false` for every error budget from 0 through 3 — so the
claimed boundary of 1 is too low — and the verdict is monotone non-decreasing
in the error budget, so a single threshold above which it returns `true` is
well defined if it exists. -/
theorem has_winning_strat_eight_budget_boundary :
    (∀ b : ℤ, 0 ≤ b → b ≤ 3 →
      has_winning_strat (State.mk (GameParams.mk (Slot.create_n 8) 4) []) b = false) ∧
    (∀ (st : State) (b : ℤ), 0 ≤ b → has_winning_strat st b = true →
      has_winning_strat st (b + 1) = true) := by
  constructor
  · intro b hb0 hb3
    have hb : b = 0 ∨ b = 1 ∨ b = 2 ∨ b = 3 := by omega
    rcases hb with rfl | rfl | rfl | rfl
    · decide
    · decide
    · decide
    · decide
  · exact fun st b hb h => hws_mono st.measure st le_rfl b hb h

/-- Witness for C5 (amended): both components applied at concrete inputs. -/
theorem has_winning_strat_eight_budget_boundary_witness :
    has_winning_strat (State.mk (GameParams.mk (Slot.create_n 8) 4) []) 2 = false ∧
    has_winning_strat
      (State.mk (GameParams.mk (Slot.create_n 8) 4)
        [Move.mk {0,1,2,3} Result.CORRECT, Move.mk {4,5,6,7} Result.CORRECT]) (0 + 1) =
      true :=
  ⟨has_winning_strat_eight_budget_boundary.1 2 (by decide) (by decide),
   has_winning_strat_eight_budget_boundary.2
     (State.mk (GameParams.mk (Slot.create_n 8) 4)
       [Move.mk {0,1,2,3} Result.CORRECT, Move.mk {4,5,6,7} Result.CORRECT]) 0
     (by decide) (by decide)⟩
